import Mathlib

/-
Shallow embedding of the `ppmitzador` raster-image library (src/src/lib.rs).

Modelling conventions:
* Rust `u8` is `Fin 256`; `usize` is `Nat`; `isize` is `Int`.
* Arithmetic on `u8`/`usize` follows Rust's overflow-checked semantics (the
  semantics of the profile the crate's own tests compile under, and the one
  RFC 560 designates as the meaning of `+`/`-`/`*`: overflow is a program
  error).  An overflowing operation is a failure, embedded as `none`.
* Fallible operations (a `panic!`, an `unwrap` of `None`, an out-of-range
  `Vec` index) are embedded in `Option`, with `none` for the failure.
* `f64` values produced by `sqrt` are modelled as the exact real numbers they
  approximate (`Coord.abs`, `Coord.distance` below return `ℝ`).  Every f64
  comparison the library performs (`p.distance(center) < radius as f64`,
  `t <= dist`) is exact-real-equivalent to an integer comparison whenever the
  squared distance is below 2^52 and the radius below 2^26, which covers every
  buffer addressable in memory; the executable definitions use the integer
  form and the lemmas `distance_lt_iff` / `distance_eq_sqrt_distSq` relate it
  to the real one.
* In `draw_line`, when `a = b` the loop guard `t <= dist` holds once with
  `dist = 0.0`, and the body computes `t/dist = 0.0/0.0 = NaN`; IEEE 754 gives
  `(bx-ax)*NaN = NaN`, `ax + NaN = NaN`, and Rust's saturating `as usize` cast
  sends `NaN` to `0`, so that iteration writes cell `(0, 0)`.  This is embedded
  explicitly by the `n = 0` branch of the loop body.
-/

/-- Basic RGB pixel struct (`struct Pixel`): three `u8` channels. -/
structure Pixel where
  r : Fin 256
  g : Fin 256
  b : Fin 256
  deriving DecidableEq

/-- Constructor `Pixel::new`. -/
def Pixel.new (r g b : Fin 256) : Pixel :=
  { r := r, g := g, b := b }

/-- Constant `Pixel::BLACK`. -/
def Pixel.BLACK : Pixel := Pixel.new 0 0 0

/-- Constant `Pixel::UNIT`. -/
def Pixel.UNIT : Pixel := Pixel.new 1 1 1

/-- Constant `Pixel::WHITE`. -/
def Pixel.WHITE : Pixel := Pixel.new 255 255 255

/-- Constant `Pixel::RED`. -/
def Pixel.RED : Pixel := Pixel.new 255 0 0

/-- Constant `Pixel::GREEN`. -/
def Pixel.GREEN : Pixel := Pixel.new 0 255 0

/-- Constant `Pixel::BLUE`. -/
def Pixel.BLUE : Pixel := Pixel.new 0 0 255

/-- Constant `Pixel::PURPLE`. -/
def Pixel.PURPLE : Pixel := Pixel.new 255 0 255

/-- Scalar multiplication `impl ops::Mul<u8> for Pixel`: each channel is
`self.r * rhs` in `u8` arithmetic.  Under checked-overflow semantics a product
that exceeds 255 is an arithmetic failure (overflow panic), embedded as
`none`; otherwise each resulting channel is the exact product. -/
def Pixel.mul (p : Pixel) (s : Fin 256) : Option Pixel :=
  if h : p.r.val * s.val < 256 ∧ p.g.val * s.val < 256 ∧ p.b.val * s.val < 256 then
    some (Pixel.new ⟨p.r.val * s.val, h.1⟩ ⟨p.g.val * s.val, h.2.1⟩ ⟨p.b.val * s.val, h.2.2⟩)
  else
    none

/-- Coordinate struct (`struct Coord`): two `usize` fields. -/
structure Coord where
  x : Nat
  y : Nat
  deriving DecidableEq

/-- Constructor `Coord::new`. -/
def Coord.new (x y : Nat) : Coord :=
  { x := x, y := y }

/-- Magnitude `Coord::abs`: `((x*x + y*y) as f64).sqrt()`, modelled as the
exact real square root. -/
noncomputable def Coord.abs (c : Coord) : ℝ :=
  Real.sqrt ((c.x * c.x + c.y * c.y : ℕ) : ℝ)

/-- Squared distance between two coordinates.  This is the integer
`dx*dx + dy*dy` that `Coord::distance` feeds to `Coord::abs`, where
`dx = (ax - bx).abs() as usize` and `dy = (ay - by).abs() as usize` are the
absolute differences computed after widening both operands to `isize`
(embedded as `Int.natAbs` of the `Int` difference). -/
def Coord.distSq (a b : Coord) : Nat :=
  ((a.x : Int) - (b.x : Int)).natAbs * ((a.x : Int) - (b.x : Int)).natAbs +
    ((a.y : Int) - (b.y : Int)).natAbs * ((a.y : Int) - (b.y : Int)).natAbs

/-- Distance `Coord::distance`: widen both coordinates to `isize`, take the
absolute componentwise differences `dx`, `dy`, and return
`Coord::new(dx, dy).abs()`. -/
noncomputable def Coord.distance (a b : Coord) : ℝ :=
  (Coord.new (((a.x : Int) - (b.x : Int)).natAbs) (((a.y : Int) - (b.y : Int)).natAbs)).abs

/-- Subtraction `impl Sub for Coord`: componentwise `usize` subtraction
`self.x - rhs.x`.  Under checked-overflow semantics an underflowing component
is an arithmetic failure (overflow panic), embedded as `none`; otherwise the
result is the exact componentwise difference. -/
def Coord.sub (a b : Coord) : Option Coord :=
  if b.x ≤ a.x ∧ b.y ≤ a.y then some (Coord.new (a.x - b.x) (a.y - b.y)) else none

/-- Addition `impl Add for Coord`: componentwise `usize` addition. -/
def Coord.add (a b : Coord) : Coord :=
  Coord.new (a.x + b.x) (a.y + b.y)

/-- Image struct (`struct ImagePPM`): a flat pixel vector plus dimensions. -/
structure ImagePPM where
  pixels : List Pixel
  width : Nat
  height : Nat
  deriving DecidableEq

/-- Constructor `ImagePPM::new`: `vec![bg_color; width*height]` with the given
dimensions. -/
def ImagePPM.new (width height : Nat) (bg : Pixel) : ImagePPM :=
  { pixels := List.replicate (width * height) bg, width := width, height := height }

/-- Flat index used by `get`/`get_mut`: `x + (height - y - 1) * width`. -/
def ImagePPM.idx (img : ImagePPM) (x y : Nat) : Nat :=
  x + (img.height - y - 1) * img.width

/-- Accessor `ImagePPM::get`: `None` when `x >= width || y >= height`,
otherwise the pixel at flat index `x + (height - y - 1)*width` (bottom-left
origin).  The source indexes `self.pixels[i]` directly there; for a buffer
satisfying the length invariant the index is always in range, and the
out-of-range panic on a malformed buffer is embedded as `none` as well. -/
def ImagePPM.get (img : ImagePPM) (x y : Nat) : Option Pixel :=
  if img.width ≤ x ∨ img.height ≤ y then none
  else img.pixels[img.idx x y]?

/-- Mutation through `ImagePPM::get_mut`: `*self.get_mut(x, y).unwrap() = col`.
`get_mut` has the same bounds contract as `get` (`None` when `x >= width ||
y >= height`); writing through the returned reference replaces the pixel at
flat index `x + (height - y - 1)*width`.  The `none` result embeds the
`unwrap` panic an out-of-bounds caller would hit. -/
def ImagePPM.set (img : ImagePPM) (x y : Nat) (col : Pixel) : Option ImagePPM :=
  if img.width ≤ x ∨ img.height ≤ y then none
  else some { img with pixels := img.pixels.set (img.idx x y) col }

/-- Floor of `m / sqrt n` for integers `m`, `n` with `n > 0`.  Used to express
the value of Rust's truncating `as usize` cast of the interpolated line
coordinate in exact arithmetic. -/
def floorDivSqrt (m n : Nat) : Nat :=
  Nat.sqrt (m * m / n)

/-- Ceiling of `m / sqrt n` for integers `m`, `n` with `n > 0`. -/
def ceilDivSqrt (m n : Nat) : Nat :=
  if m * m = floorDivSqrt m n * floorDivSqrt m n * n then floorDivSqrt m n
  else floorDivSqrt m n + 1

/-- Interpolated coordinate of `draw_line` at step `t`, in exact arithmetic:
the source computes `p + (q - p) * (t / dist)` in `f64` (with
`dist = sqrt n`, `n` the squared distance) and truncates with `as usize`.
For `p ≤ q` this is `p + ⌊(q-p)·t/√n⌋`; for `p > q` it is `p - ⌈(p-q)·t/√n⌉`. -/
def lerpFloor (p q t n : Nat) : Nat :=
  if p ≤ q then p + floorDivSqrt ((q - p) * t) n
  else p - ceilDivSqrt ((p - q) * t) n

/-- Line rasterization `ImagePPM::draw_line`.  The source computes
`dist = sqrt((ax-bx)^2 + (ay-by)^2)` in `f64` and steps `t = 0.0, 1.0, ...`
while `t <= dist`, so the loop body runs for the integers
`t = 0, 1, ..., ⌊dist⌋` — that is, for `t ∈ List.range (Nat.sqrt n + 1)` where
`n` is the squared distance.  Each iteration writes `col` through
`get_mut(x as usize, y as usize).unwrap()` at the interpolated point; when
`n = 0` (i.e. `a = b`) the computed point is `NaN` and the saturating cast
makes the iteration write cell `(0, 0)` (see the header note).  After the
loop the endpoint `b` is written unconditionally. -/
def ImagePPM.draw_line (img : ImagePPM) (a b : Coord) (col : Pixel) : Option ImagePPM :=
  ((List.range (Nat.sqrt (Coord.distSq a b) + 1)).foldlM
      (fun (im : ImagePPM) (t : Nat) =>
        if Coord.distSq a b = 0 then im.set 0 0 col
        else im.set (lerpFloor a.x b.x t (Coord.distSq a b))
          (lerpFloor a.y b.y t (Coord.distSq a b)) col)
      img).bind
    (fun im => im.set b.x b.y col)

/-- Circle rasterization `ImagePPM::draw_circle`: for every `y in 0..height`
and `x in 0..width`, paint `(x, y)` through `get_mut(x, y).unwrap()` when
`p.distance(center) < radius as f64`.  The `f64` comparison
`sqrt(distSq) < radius` is embedded in its exact integer form
`distSq < radius * radius` (lemma `distance_lt_iff` proves the equivalence
with the real-valued `Coord.distance`). -/
def ImagePPM.draw_circle (img : ImagePPM) (center : Coord) (radius : Nat) (col : Pixel) :
    Option ImagePPM :=
  (List.range img.height).foldlM
    (fun (im : ImagePPM) (y : Nat) =>
      (List.range im.width).foldlM
        (fun (im2 : ImagePPM) (x : Nat) =>
          if Coord.distSq (Coord.new x y) center < radius * radius then im2.set x y col
          else some im2)
        im)
    img

/-- Right-aligned field of minimum width 3, space-padded: Rust's `{:3}`
format of an unsigned integer. -/
def pad3 (n : Nat) : String :=
  String.mk (List.replicate (3 - (Nat.repr n).length) ' ') ++ Nat.repr n

/-- One serialized pixel line: `format!("{:3} {:3} {:3}\n", r, g, b)`. -/
def Pixel.line (p : Pixel) : String :=
  pad3 p.r.val ++ " " ++ pad3 p.g.val ++ " " ++ pad3 p.b.val ++ "\n"

/-- Serialization `impl fmt::Display for ImagePPM`: the header
`P3\n<width> <height>\n255\n` followed by one line per pixel in storage
order. -/
def ImagePPM.fmt (img : ImagePPM) : String :=
  "P3\n" ++ Nat.repr img.width ++ " " ++ Nat.repr img.height ++ "\n255\n" ++
    String.join (img.pixels.map Pixel.line)

example : (ImagePPM.new 2 2 Pixel.PURPLE).fmt =
    "P3\n2 2\n255\n255   0 255\n255   0 255\n255   0 255\n255   0 255\n" := by
  rfl

example :
    ((do
      let i1 ← (ImagePPM.new 3 3 Pixel.PURPLE).set 0 0 Pixel.WHITE
      let i2 ← i1.set 1 0 Pixel.WHITE
      let i3 ← i2.set 2 0 Pixel.WHITE
      let i4 ← i3.set 0 1 Pixel.WHITE
      let i5 ← i4.set 0 2 Pixel.WHITE
      let i6 ← i5.set 2 1 Pixel.WHITE
      let i7 ← i6.set 1 1 Pixel.BLACK
      let i8 ← i7.set 2 2 Pixel.WHITE
      let i9 ← i8.set 1 2 Pixel.WHITE
      pure i9.fmt : Option String)) =
    some ("P3\n3 3\n255\n255 255 255\n255 255 255\n255 255 255\n255 255 255\n" ++
      "  0   0   0\n255 255 255\n255 255 255\n255 255 255\n255 255 255\n") := by
  rfl

theorem ImagePPM.idx_lt {img : ImagePPM} {x y : Nat} (hx : x < img.width)
    (hy : y < img.height) : img.idx x y < img.width * img.height := by
  obtain ⟨k, hk⟩ : ∃ k, img.height = k + 1 := ⟨img.height - 1, by omega⟩
  have h1 : img.height - y - 1 ≤ k := by omega
  have h2 : (img.height - y - 1) * img.width ≤ k * img.width :=
    Nat.mul_le_mul_right _ h1
  have h3 : img.width * img.height = img.width + k * img.width := by
    rw [hk]; ring
  unfold ImagePPM.idx
  omega

theorem ImagePPM.idx_inj {img : ImagePPM} {x y x' y' : Nat} (hx : x < img.width)
    (hy : y < img.height) (hx' : x' < img.width) (hy' : y' < img.height)
    (h : img.idx x y = img.idx x' y') : x = x' ∧ y = y' := by
  unfold ImagePPM.idx at h
  have hxx : x = x' := by
    have h1 := congrArg (· % img.width) h
    simpa [Nat.add_mul_mod_self_right, Nat.mod_eq_of_lt hx, Nat.mod_eq_of_lt hx'] using h1
  subst hxx
  have h2 : (img.height - y - 1) * img.width = (img.height - y' - 1) * img.width := by omega
  have h3 : img.height - y - 1 = img.height - y' - 1 :=
    Nat.eq_of_mul_eq_mul_right (by omega) h2
  exact ⟨rfl, by omega⟩

theorem ImagePPM.set_eq_some {img : ImagePPM} {x y : Nat} {col : Pixel}
    (hx : x < img.width) (hy : y < img.height) :
    img.set x y col = some { img with pixels := img.pixels.set (img.idx x y) col } := by
  unfold ImagePPM.set
  rw [if_neg (by omega)]

theorem ImagePPM.set_oob {img : ImagePPM} {x y : Nat} {col : Pixel}
    (h : img.width ≤ x ∨ img.height ≤ y) : img.set x y col = none := by
  unfold ImagePPM.set
  rw [if_pos h]

theorem ImagePPM.get_oob {img : ImagePPM} {x y : Nat}
    (h : img.width ≤ x ∨ img.height ≤ y) : img.get x y = none := by
  unfold ImagePPM.get
  rw [if_pos h]

theorem ImagePPM.get_inb {img : ImagePPM} {x y : Nat} (hx : x < img.width)
    (hy : y < img.height) : img.get x y = img.pixels[img.idx x y]? := by
  unfold ImagePPM.get
  rw [if_neg (by omega)]

theorem ImagePPM.set_dims {img img' : ImagePPM} {x y : Nat} {col : Pixel}
    (h : img.set x y col = some img') :
    img'.width = img.width ∧ img'.height = img.height ∧
      img'.pixels.length = img.pixels.length := by
  unfold ImagePPM.set at h
  by_cases hb : img.width ≤ x ∨ img.height ≤ y
  · rw [if_pos hb] at h; cases h
  · rw [if_neg hb] at h
    obtain rfl : img' = _ := (Option.some.inj h).symm
    exact ⟨rfl, rfl, List.length_set ..⟩

theorem ImagePPM.set_inbounds {img img' : ImagePPM} {x y : Nat} {col : Pixel}
    (h : img.set x y col = some img') : x < img.width ∧ y < img.height := by
  unfold ImagePPM.set at h
  by_cases hb : img.width ≤ x ∨ img.height ≤ y
  · rw [if_pos hb] at h; cases h
  · omega

theorem ImagePPM.get_setPixels (img : ImagePPM) (l : List Pixel) (x y : Nat) :
    ({ img with pixels := l } : ImagePPM).get x y =
      if img.width ≤ x ∨ img.height ≤ y then none else l[img.idx x y]? :=
  rfl

theorem ImagePPM.get_set {img img' : ImagePPM} {x y : Nat} {col : Pixel}
    (h : img.set x y col = some img') (x' y' : Nat) :
    img'.get x' y' =
      if x' = x ∧ y' = y then (img.get x y).map (fun _ => col) else img.get x' y' := by
  obtain ⟨hx, hy⟩ := ImagePPM.set_inbounds h
  rw [ImagePPM.set_eq_some hx hy] at h
  obtain rfl : img' = _ := (Option.some.inj h).symm
  rw [ImagePPM.get_setPixels]
  by_cases he : x' = x ∧ y' = y
  · obtain ⟨hex, hey⟩ := he
    subst hex; subst hey
    rw [if_neg (by omega : ¬(img.width ≤ x' ∨ img.height ≤ y')), if_pos ⟨rfl, rfl⟩,
      ImagePPM.get_inb hx hy, List.getElem?_set_self']
    rfl
  · rw [if_neg he]
    by_cases hb : img.width ≤ x' ∨ img.height ≤ y'
    · rw [if_pos hb, ImagePPM.get_oob hb]
    · have hx' : x' < img.width := by omega
      have hy' : y' < img.height := by omega
      rw [if_neg hb, ImagePPM.get_inb hx' hy']
      have hne : img.idx x y ≠ img.idx x' y' := by
        intro hc
        exact he ⟨(ImagePPM.idx_inj hx hy hx' hy' hc).1.symm,
          (ImagePPM.idx_inj hx hy hx' hy' hc).2.symm⟩
      rw [List.getElem?_set_ne hne]

theorem ImagePPM.get_isSome {img : ImagePPM} {x y : Nat} (hx : x < img.width)
    (hy : y < img.height) (hlen : img.pixels.length = img.width * img.height) :
    ∃ p, img.get x y = some p := by
  rw [ImagePPM.get_inb hx hy]
  have hi : img.idx x y < img.pixels.length := by
    rw [hlen]; exact ImagePPM.idx_lt hx hy
  exact ⟨img.pixels[img.idx x y], List.getElem?_eq_getElem hi⟩

theorem foldlM_dims {β : Type} {f : ImagePPM → β → Option ImagePPM}
    (hf : ∀ im x im', f im x = some im' →
      im'.width = im.width ∧ im'.height = im.height ∧
        im'.pixels.length = im.pixels.length) :
    ∀ (xs : List β) (im im' : ImagePPM), List.foldlM f im xs = some im' →
      im'.width = im.width ∧ im'.height = im.height ∧
        im'.pixels.length = im.pixels.length := by
  intro xs
  induction xs with
  | nil =>
    intro im im' h
    obtain rfl : im = im' := Option.some.inj h
    exact ⟨rfl, rfl, rfl⟩
  | cons x xs ih =>
    intro im im' h
    rw [List.foldlM_cons] at h
    obtain ⟨im₁, h₁, h₂⟩ := Option.bind_eq_some.mp h
    obtain ⟨w1, h1, l1⟩ := hf im x im₁ h₁
    obtain ⟨w2, h2, l2⟩ := ih im₁ im' h₂
    exact ⟨w2.trans w1, h2.trans h1, l2.trans l1⟩

theorem foldlM_set_some {β : Type} (g1 g2 : β → Nat) (col : Pixel) :
    ∀ (xs : List β) (im : ImagePPM),
      (∀ t ∈ xs, g1 t < im.width ∧ g2 t < im.height) →
      ∃ im', List.foldlM (fun (m : ImagePPM) (t : β) => m.set (g1 t) (g2 t) col) im xs
          = some im' := by
  intro xs
  induction xs with
  | nil =>
    intro im _
    exact ⟨im, rfl⟩
  | cons x xs ih =>
    intro im hb
    obtain ⟨hx, hy⟩ := hb x (List.mem_cons_self x xs)
    have h₁ : im.set (g1 x) (g2 x) col =
        some { im with pixels := im.pixels.set (im.idx (g1 x) (g2 x)) col } :=
      ImagePPM.set_eq_some hx hy
    obtain ⟨im', h₂⟩ :=
      ih { im with pixels := im.pixels.set (im.idx (g1 x) (g2 x)) col }
        (fun t ht => hb t (List.mem_cons_of_mem x ht))
    refine ⟨im', ?_⟩
    rw [List.foldlM_cons, h₁]
    exact h₂

theorem floorDivSqrt_le {m n k : Nat} (hn : 0 < n) (h : m * m ≤ k * k * n) :
    floorDivSqrt m n ≤ k := by
  unfold floorDivSqrt
  have h1 : m * m / n ≤ k * k := by
    have h2 := Nat.div_le_div_right (c := n) h
    rwa [Nat.mul_div_cancel _ hn] at h2
  calc Nat.sqrt (m * m / n) ≤ Nat.sqrt (k * k) := Nat.sqrt_le_sqrt h1
    _ = k := Nat.sqrt_eq k

theorem ceilDivSqrt_le {m n k : Nat} (hn : 0 < n) (h : m * m ≤ k * k * n) :
    ceilDivSqrt m n ≤ k := by
  unfold ceilDivSqrt
  by_cases hsq : m * m = floorDivSqrt m n * floorDivSqrt m n * n
  · rw [if_pos hsq]
    exact floorDivSqrt_le hn h
  · rw [if_neg hsq]
    have hfl : floorDivSqrt m n ≤ k := floorDivSqrt_le hn h
    rcases Nat.lt_or_ge (floorDivSqrt m n) k with hlt | hge
    · omega
    · exfalso
      have hk : floorDivSqrt m n = k := Nat.le_antisymm hfl hge
      have h2 : k * k ≤ m * m / n := by
        have h3 := Nat.sqrt_le (m * m / n)
        rw [show Nat.sqrt (m * m / n) = k from hk] at h3
        exact h3
      have h4 : k * k * n ≤ m * m :=
        Nat.le_trans (Nat.mul_le_mul_right n h2) (Nat.div_mul_le_self _ n)
      have h5 : m * m = k * k * n := Nat.le_antisymm h h4
      rw [hk] at hsq
      exact hsq h5

theorem lerpFloor_bounds {p q t n : Nat} (hn : 0 < n) (ht : t ≤ Nat.sqrt n) :
    min p q ≤ lerpFloor p q t n ∧ lerpFloor p q t n ≤ max p q := by
  have htt : t * t ≤ n := Nat.le_sqrt.mp ht
  unfold lerpFloor
  by_cases hpq : p ≤ q
  · rw [if_pos hpq]
    have h1 : (q - p) * t * ((q - p) * t) ≤ (q - p) * (q - p) * n := by
      calc (q - p) * t * ((q - p) * t) = (q - p) * (q - p) * (t * t) := by ring
        _ ≤ (q - p) * (q - p) * n := Nat.mul_le_mul_left _ htt
    have h2 := floorDivSqrt_le hn h1
    omega
  · rw [if_neg hpq]
    have h1 : (p - q) * t * ((p - q) * t) ≤ (p - q) * (p - q) * n := by
      calc (p - q) * t * ((p - q) * t) = (p - q) * (p - q) * (t * t) := by ring
        _ ≤ (p - q) * (p - q) * n := Nat.mul_le_mul_left _ htt
    have h2 := ceilDivSqrt_le hn h1
    omega

theorem circle_row_spec (center : Coord) (radius : Nat) (col : Pixel) (y : Nat) :
    ∀ (xs : List Nat) (im : ImagePPM), y < im.height → (∀ x ∈ xs, x < im.width) →
      ∃ im', (List.foldlM
          (fun (im2 : ImagePPM) (x : Nat) =>
            if Coord.distSq (Coord.new x y) center < radius * radius then im2.set x y col
            else some im2) im xs) = some im' ∧
        im'.width = im.width ∧ im'.height = im.height ∧
        im'.pixels.length = im.pixels.length ∧
        ∀ x' y', im'.get x' y' =
          if x' ∈ xs ∧ y' = y ∧ Coord.distSq (Coord.new x' y) center < radius * radius
          then (im.get x' y').map (fun _ => col) else im.get x' y' := by
  intro xs
  induction xs with
  | nil =>
    intro im _ _
    refine ⟨im, rfl, rfl, rfl, rfl, fun x' y' => ?_⟩
    rw [if_neg (by simp)]
  | cons x xs ih =>
    intro im hy hxs
    have hx : x < im.width := hxs x (List.mem_cons_self x xs)
    by_cases hts : Coord.distSq (Coord.new x y) center < radius * radius
    · have h₁ : im.set x y col =
          some { im with pixels := im.pixels.set (im.idx x y) col } :=
        ImagePPM.set_eq_some hx hy
      obtain ⟨im', hfold, hw, hh, hl, hget⟩ :=
        ih { im with pixels := im.pixels.set (im.idx x y) col }
          hy (fun t ht => hxs t (List.mem_cons_of_mem x ht))
      refine ⟨im', ?_, hw, hh, by simpa using hl, fun x' y' => ?_⟩
      · simp only [List.foldlM_cons]
        rw [if_pos hts, h₁]
        exact hfold
      · rw [hget x' y', ImagePPM.get_set h₁ x' y']
        by_cases hyy : y' = y
        · by_cases hxx : x' = x
          · simp [hxx, hyy, hts, List.mem_cons, Option.map_map]
            intro _
            cases im.get x y <;> rfl
          · by_cases hts' : Coord.distSq (Coord.new x' y) center < radius * radius
            · simp [hxx, hyy, hts', List.mem_cons, Option.map_map, Function.comp]
            · simp [hxx, hyy, hts', List.mem_cons]
        · simp [hyy]
    · obtain ⟨im', hfold, hw, hh, hl, hget⟩ :=
        ih im hy (fun t ht => hxs t (List.mem_cons_of_mem x ht))
      refine ⟨im', ?_, hw, hh, hl, fun x' y' => ?_⟩
      · simp only [List.foldlM_cons]
        rw [if_neg hts]
        exact hfold
      · rw [hget x' y']
        by_cases hyy : y' = y
        · by_cases hxx : x' = x
          · simp [hxx, hyy, hts, List.mem_cons]
          · by_cases hts' : Coord.distSq (Coord.new x' y) center < radius * radius
            · simp [hxx, hyy, hts', List.mem_cons]
            · simp [hyy, hts']
        · simp [hyy]

theorem circle_fold_spec (center : Coord) (radius : Nat) (col : Pixel) :
    ∀ (ys : List Nat) (img : ImagePPM), (∀ y ∈ ys, y < img.height) →
      ∃ img', (List.foldlM
          (fun (im : ImagePPM) (y : Nat) =>
            (List.range im.width).foldlM
              (fun (im2 : ImagePPM) (x : Nat) =>
                if Coord.distSq (Coord.new x y) center < radius * radius then im2.set x y col
                else some im2)
              im)
          img ys) = some img' ∧
        img'.width = img.width ∧ img'.height = img.height ∧
        img'.pixels.length = img.pixels.length ∧
        ∀ x' y', img'.get x' y' =
          if y' ∈ ys ∧ x' < img.width ∧
              Coord.distSq (Coord.new x' y') center < radius * radius
          then (img.get x' y').map (fun _ => col) else img.get x' y' := by
  intro ys
  induction ys with
  | nil =>
    intro img _
    refine ⟨img, rfl, rfl, rfl, rfl, fun x' y' => ?_⟩
    rw [if_neg (by simp)]
  | cons y ys ih =>
    intro img hys
    have hy : y < img.height := hys y (List.mem_cons_self y ys)
    obtain ⟨im₁, hfold₁, hw₁, hh₁, hl₁, hget₁⟩ :=
      circle_row_spec center radius col y (List.range img.width) img hy
        (fun x hx => List.mem_range.mp hx)
    obtain ⟨img', hfold₂, hw₂, hh₂, hl₂, hget₂⟩ :=
      ih im₁ (fun t ht => by rw [hh₁]; exact hys t (List.mem_cons_of_mem y ht))
    refine ⟨img', ?_, by rw [hw₂, hw₁], by rw [hh₂, hh₁], by rw [hl₂, hl₁],
      fun x' y' => ?_⟩
    · simp only [List.foldlM_cons]
      rw [hfold₁]
      exact hfold₂
    · rw [hget₂ x' y', hget₁ x' y']
      by_cases hyy : y' = y
      · by_cases hxw : x' < img.width
        · by_cases hts' : Coord.distSq (Coord.new x' y') center < radius * radius
          · rw [if_pos (show x' ∈ List.range img.width ∧ y' = y ∧
                Coord.distSq (Coord.new x' y) center < radius * radius from
                ⟨List.mem_range.mpr hxw, hyy, by rw [← hyy]; exact hts'⟩),
              if_pos (show y' ∈ y :: ys ∧ x' < img.width ∧
                Coord.distSq (Coord.new x' y') center < radius * radius from
                ⟨List.mem_cons.mpr (Or.inl hyy), hxw, hts'⟩)]
            by_cases hA : y' ∈ ys ∧ x' < im₁.width ∧
                Coord.distSq (Coord.new x' y') center < radius * radius
            · rw [if_pos hA]
              cases img.get x' y' <;> rfl
            · rw [if_neg hA]
          · rw [if_neg (show ¬(x' ∈ List.range img.width ∧ y' = y ∧
                Coord.distSq (Coord.new x' y) center < radius * radius) from
                fun hc => hts' (by rw [hyy]; exact hc.2.2)),
              if_neg (show ¬(y' ∈ ys ∧ x' < im₁.width ∧
                Coord.distSq (Coord.new x' y') center < radius * radius) from
                fun hc => hts' hc.2.2),
              if_neg (show ¬(y' ∈ y :: ys ∧ x' < img.width ∧
                Coord.distSq (Coord.new x' y') center < radius * radius) from
                fun hc => hts' hc.2.2)]
        · rw [if_neg (show ¬(x' ∈ List.range img.width ∧ y' = y ∧
              Coord.distSq (Coord.new x' y) center < radius * radius) from
              fun hc => hxw (List.mem_range.mp hc.1)),
            if_neg (show ¬(y' ∈ ys ∧ x' < im₁.width ∧
              Coord.distSq (Coord.new x' y') center < radius * radius) from
              fun hc => hxw (hw₁ ▸ hc.2.1)),
            if_neg (show ¬(y' ∈ y :: ys ∧ x' < img.width ∧
              Coord.distSq (Coord.new x' y') center < radius * radius) from
              fun hc => hxw hc.2.1)]
      · rw [if_neg (show ¬(x' ∈ List.range img.width ∧ y' = y ∧
            Coord.distSq (Coord.new x' y) center < radius * radius) from
            fun hc => hyy hc.2.1)]
        by_cases hA : y' ∈ ys ∧ x' < im₁.width ∧
            Coord.distSq (Coord.new x' y') center < radius * radius
        · rw [if_pos hA, if_pos (show y' ∈ y :: ys ∧ x' < img.width ∧
            Coord.distSq (Coord.new x' y') center < radius * radius from
            ⟨List.mem_cons.mpr (Or.inr hA.1), hw₁ ▸ hA.2.1, hA.2.2⟩)]
        · rw [if_neg hA, if_neg (show ¬(y' ∈ y :: ys ∧ x' < img.width ∧
            Coord.distSq (Coord.new x' y') center < radius * radius) from fun hc => by
              rcases List.mem_cons.mp hc.1 with h | h
              · exact hyy h
              · exact hA ⟨h, hw₁.symm ▸ hc.2.1, hc.2.2⟩)]

theorem distance_eq_sqrt_distSq (a b : Coord) :
    Coord.distance a b = Real.sqrt ((Coord.distSq a b : ℕ) : ℝ) :=
  rfl

theorem distance_lt_iff (a b : Coord) (r : Nat) :
    Coord.distance a b < (r : ℝ) ↔ Coord.distSq a b < r * r := by
  rw [distance_eq_sqrt_distSq]
  rcases Nat.eq_zero_or_pos r with hr | hr
  · subst hr
    simp only [Nat.cast_zero]
    constructor
    · intro h
      exact absurd h (not_lt.mpr (Real.sqrt_nonneg _))
    · intro h
      omega
  · rw [Real.sqrt_lt' (by exact_mod_cast hr),
      show ((r : ℝ)) ^ 2 = ((r * r : ℕ) : ℝ) by push_cast; ring]
    exact Nat.cast_lt

/-- C6: the distance between two coordinates equals the magnitude of their
componentwise absolute difference (expressed without any unsigned
subtraction, as `max - min` in each axis), and is symmetric in its
arguments.  The embedding of `Coord::distance` computes the differences in
widened signed arithmetic (`Int`), so no unsigned underflow occurs for
either operand order. -/
theorem distance_abs_symm (a b : Coord) :
    Coord.distance a b =
      (Coord.new (max a.x b.x - min a.x b.x) (max a.y b.y - min a.y b.y)).abs ∧
    Coord.distance a b = Coord.distance b a := by
  have hx : ((a.x : Int) - b.x).natAbs = max a.x b.x - min a.x b.x := by omega
  have hy : ((a.y : Int) - b.y).natAbs = max a.y b.y - min a.y b.y := by omega
  have hx' : ((b.x : Int) - a.x).natAbs = max a.x b.x - min a.x b.x := by omega
  have hy' : ((b.y : Int) - a.y).natAbs = max a.y b.y - min a.y b.y := by omega
  constructor
  · unfold Coord.distance
    rw [hx, hy]
  · unfold Coord.distance
    rw [hx, hy, hx', hy']

/-- C7: componentwise coordinate subtraction is checked: when either
component of the right-hand side exceeds the corresponding component of the
left-hand side the subtraction is an explicit arithmetic failure (`none`,
the overflow panic), never a silently wrapped value; otherwise it returns
the exact componentwise difference. -/
theorem coord_sub_checked (a b : Coord) :
    (a.x < b.x ∨ a.y < b.y → Coord.sub a b = none) ∧
    (b.x ≤ a.x → b.y ≤ a.y →
      Coord.sub a b = some (Coord.new (a.x - b.x) (a.y - b.y))) := by
  constructor
  · intro h
    unfold Coord.sub
    rw [if_neg (by omega)]
  · intro h1 h2
    unfold Coord.sub
    rw [if_pos ⟨h1, h2⟩]

theorem coord_sub_checked_witness :
    Coord.sub (Coord.new 0 0) (Coord.new 1 0) = none ∧
      Coord.sub (Coord.new 5 7) (Coord.new 2 3) = some (Coord.new 3 4) :=
  ⟨(coord_sub_checked (Coord.new 0 0) (Coord.new 1 0)).1 (by decide),
   (coord_sub_checked (Coord.new 5 7) (Coord.new 2 3)).2 (by decide) (by decide)⟩

/-- C8 counterexample: multiplying the pixel (128, 0, 0) by the scalar 2
does not produce the wrapped pixel (0, 0, 0) = ((128*2) mod 256, 0, 0) the
claim predicts; the checked `u8` multiplication fails (overflow panic). -/
theorem pixel_mul_overflow_cex :
    Pixel.mul (Pixel.new 128 0 0) 2 = none ∧
      Pixel.mul (Pixel.new 128 0 0) 2 ≠ some (Pixel.new 0 0 0) := by
  constructor <;> decide

/-- C8 (amended): pixel scalar multiplication multiplies each channel with
checked 8-bit arithmetic: when any channel product exceeds 255 the
multiplication is an arithmetic failure (overflow panic, `none`); when every
product fits, each resulting channel equals the exact product. -/
theorem pixel_mul_checked (p : Pixel) (s : Fin 256) :
    (256 ≤ p.r.val * s.val ∨ 256 ≤ p.g.val * s.val ∨ 256 ≤ p.b.val * s.val →
      Pixel.mul p s = none) ∧
    (∀ q : Pixel, Pixel.mul p s = some q →
      q.r.val = p.r.val * s.val ∧ q.g.val = p.g.val * s.val ∧
        q.b.val = p.b.val * s.val) := by
  constructor
  · intro h
    unfold Pixel.mul
    rw [dif_neg (by omega)]
  · intro q hq
    unfold Pixel.mul at hq
    by_cases hh : p.r.val * s.val < 256 ∧ p.g.val * s.val < 256 ∧
        p.b.val * s.val < 256
    · rw [dif_pos hh] at hq
      obtain rfl : q = _ := (Option.some.inj hq).symm
      exact ⟨rfl, rfl, rfl⟩
    · rw [dif_neg hh] at hq
      cases hq

theorem pixel_mul_checked_witness :
    Pixel.mul (Pixel.new 128 0 0) 2 = none ∧
      ((Pixel.new 30 40 50).r.val = (Pixel.new 3 4 5).r.val * (10 : Fin 256).val ∧
        (Pixel.new 30 40 50).g.val = (Pixel.new 3 4 5).g.val * (10 : Fin 256).val ∧
        (Pixel.new 30 40 50).b.val = (Pixel.new 3 4 5).b.val * (10 : Fin 256).val) :=
  ⟨(pixel_mul_checked (Pixel.new 128 0 0) 2).1 (by decide),
   (pixel_mul_checked (Pixel.new 3 4 5) 10).2 (Pixel.new 30 40 50) (by decide)⟩

/-- C3: for every buffer, center, radius and color, `draw_circle` succeeds,
and a cell holds the new color exactly when its Euclidean distance to the
center is strictly less than the radius (an in-bounds cell at distance
greater than or equal to the radius — including exactly equal — keeps its
previous value, and out-of-bounds queries still return absence). -/
theorem draw_circle_paints_iff (img : ImagePPM) (center : Coord) (radius : Nat)
    (col : Pixel) (x y : Nat) :
    ∃ img', img.draw_circle center radius col = some img' ∧
      img'.get x y =
        if Coord.distance (Coord.new x y) center < (radius : ℝ)
        then (img.get x y).map (fun _ => col) else img.get x y := by
  obtain ⟨img', hfold, hw, hh, hl, hget⟩ :=
    circle_fold_spec center radius col (List.range img.height) img
      (fun t ht => List.mem_range.mp ht)
  refine ⟨img', hfold, ?_⟩
  rw [hget x y]
  by_cases hd : Coord.distSq (Coord.new x y) center < radius * radius
  · rw [if_pos ((distance_lt_iff (Coord.new x y) center radius).mpr hd)]
    by_cases hin : x < img.width ∧ y < img.height
    · rw [if_pos ⟨List.mem_range.mpr hin.2, hin.1, hd⟩]
    · rw [if_neg (show ¬(y ∈ List.range img.height ∧ x < img.width ∧
          Coord.distSq (Coord.new x y) center < radius * radius) from
          fun hc => hin ⟨hc.2.1, List.mem_range.mp hc.1⟩),
        ImagePPM.get_oob (by omega)]
      rfl
  · rw [if_neg (show ¬Coord.distance (Coord.new x y) center < (radius : ℝ) from
      fun hc => hd ((distance_lt_iff (Coord.new x y) center radius).mp hc)),
      if_neg (show ¬(y ∈ List.range img.height ∧ x < img.width ∧
        Coord.distSq (Coord.new x y) center < radius * radius) from
        fun hc => hd hc.2.2)]

/-- C10: for every buffer (including degenerate zero-width or zero-height
ones), every center, radius and color, `draw_circle` terminates and never
panics: every mutable access it performs is in bounds, so the `unwrap` of
the bounds-checked access never hits the absent case and the embedded
operation always returns a value. -/
theorem draw_circle_total (img : ImagePPM) (center : Coord) (radius : Nat)
    (col : Pixel) : (img.draw_circle center radius col).isSome = true := by
  obtain ⟨img', hfold, _, _, _, _⟩ :=
    circle_fold_spec center radius col (List.range img.height) img
      (fun t ht => List.mem_range.mp ht)
  rw [show img.draw_circle center radius col = some img' from hfold]
  rfl

/-- C4: for in-bounds endpoints `a` and `b` of a buffer satisfying the
length invariant, `draw_line` succeeds (every interpolated point it writes
is in bounds) and afterwards the cell at `b` holds the given color,
regardless of interpolation rounding, thanks to the unconditional final
write of the endpoint. -/
theorem draw_line_endpoint (img : ImagePPM) (a b : Coord) (col : Pixel)
    (ha1 : a.x < img.width) (ha2 : a.y < img.height)
    (hb1 : b.x < img.width) (hb2 : b.y < img.height)
    (hlen : img.pixels.length = img.width * img.height) :
    ∃ img', img.draw_line a b col = some img' ∧ img'.get b.x b.y = some col := by
  unfold ImagePPM.draw_line
  by_cases hn : Coord.distSq a b = 0
  · simp only [hn, eq_self_iff_true, if_true]
    obtain ⟨im₁, hfold⟩ :=
      foldlM_set_some (fun _ : Nat => 0) (fun _ : Nat => 0) col
        (List.range (Nat.sqrt 0 + 1)) img
        (fun t _ => show 0 < img.width ∧ 0 < img.height from ⟨by omega, by omega⟩)
    have hd := foldlM_dims (f := fun (m : ImagePPM) (t : Nat) =>
        m.set ((fun _ : Nat => 0) t) ((fun _ : Nat => 0) t) col)
      (fun a' t' b' h' => ImagePPM.set_dims h')
      (List.range (Nat.sqrt 0 + 1)) img im₁ hfold
    have hbw : b.x < im₁.width := by rw [hd.1]; exact hb1
    have hbh : b.y < im₁.height := by rw [hd.2.1]; exact hb2
    have hlen₁ : im₁.pixels.length = im₁.width * im₁.height := by
      rw [hd.1, hd.2.1, hd.2.2]; exact hlen
    have hset := @ImagePPM.set_eq_some im₁ b.x b.y col hbw hbh
    obtain ⟨p, hp⟩ := ImagePPM.get_isSome hbw hbh hlen₁
    refine ⟨{ im₁ with pixels := im₁.pixels.set (im₁.idx b.x b.y) col }, ?_, ?_⟩
    · rw [hfold]
      exact hset
    · rw [ImagePPM.get_set hset b.x b.y, if_pos ⟨rfl, rfl⟩, hp]
      rfl
  · simp only [if_neg hn]
    have hpos : 0 < Coord.distSq a b := Nat.pos_of_ne_zero hn
    obtain ⟨im₁, hfold⟩ :=
      foldlM_set_some (fun t => lerpFloor a.x b.x t (Coord.distSq a b))
        (fun t => lerpFloor a.y b.y t (Coord.distSq a b)) col
        (List.range (Nat.sqrt (Coord.distSq a b) + 1)) img
        (fun t ht => by
          have htle : t ≤ Nat.sqrt (Coord.distSq a b) :=
            Nat.lt_succ_iff.mp (List.mem_range.mp ht)
          have h1 := lerpFloor_bounds (p := a.x) (q := b.x) hpos htle
          have h2 := lerpFloor_bounds (p := a.y) (q := b.y) hpos htle
          exact ⟨lt_of_le_of_lt h1.2 (max_lt ha1 hb1),
            lt_of_le_of_lt h2.2 (max_lt ha2 hb2)⟩)
    have hd := foldlM_dims (f := fun (m : ImagePPM) (t : Nat) =>
        m.set ((fun t' => lerpFloor a.x b.x t' (Coord.distSq a b)) t)
          ((fun t' => lerpFloor a.y b.y t' (Coord.distSq a b)) t) col)
      (fun a' t' b' h' => ImagePPM.set_dims h')
      (List.range (Nat.sqrt (Coord.distSq a b) + 1)) img im₁ hfold
    have hbw : b.x < im₁.width := by rw [hd.1]; exact hb1
    have hbh : b.y < im₁.height := by rw [hd.2.1]; exact hb2
    have hlen₁ : im₁.pixels.length = im₁.width * im₁.height := by
      rw [hd.1, hd.2.1, hd.2.2]; exact hlen
    have hset := @ImagePPM.set_eq_some im₁ b.x b.y col hbw hbh
    obtain ⟨p, hp⟩ := ImagePPM.get_isSome hbw hbh hlen₁
    refine ⟨{ im₁ with pixels := im₁.pixels.set (im₁.idx b.x b.y) col }, ?_, ?_⟩
    · rw [hfold]
      exact hset
    · rw [ImagePPM.get_set hset b.x b.y, if_pos ⟨rfl, rfl⟩, hp]
      rfl

theorem draw_line_endpoint_witness :
    ∃ img', (ImagePPM.new 2 1 Pixel.BLACK).draw_line (Coord.new 0 0)
        (Coord.new 1 0) Pixel.WHITE = some img' ∧
      img'.get 1 0 = some Pixel.WHITE :=
  draw_line_endpoint (ImagePPM.new 2 1 Pixel.BLACK) (Coord.new 0 0)
    (Coord.new 1 0) Pixel.WHITE (by decide) (by decide) (by decide) (by decide)
    (by decide)

/-- C5 (code bug evaluation): at the failing input — a 2-by-2 black buffer
and the degenerate call `draw_line(a, a, WHITE)` with `a = (1, 1)` — the
loop's single iteration computes `t/dist = 0.0/0.0 = NaN`, whose saturating
cast addresses cell `(0, 0)`, so the call paints cell `(0, 0)` in addition
to the cell at `a`: two cells change, contradicting the claim that exactly
the cell at `a` is mutated. -/
theorem draw_line_degenerate_paints_origin :
    (ImagePPM.new 2 2 Pixel.BLACK).draw_line (Coord.new 1 1) (Coord.new 1 1)
        Pixel.WHITE =
      some { pixels := [Pixel.BLACK, Pixel.WHITE, Pixel.WHITE, Pixel.BLACK],
             width := 2, height := 2 } ∧
    (ImagePPM.new 2 2 Pixel.BLACK).get 0 0 = some Pixel.BLACK ∧
    ({ pixels := [Pixel.BLACK, Pixel.WHITE, Pixel.WHITE, Pixel.BLACK],
        width := 2, height := 2 } : ImagePPM).get 0 0 = some Pixel.WHITE ∧
    Coord.new 1 1 ≠ Coord.new 0 0 := by
  refine ⟨?_, ?_, ?_, ?_⟩ <;> decide

/-- C1: serialization produces exactly the header `P3\n<W> <H>\n255\n`
followed by one line per pixel (each line the three channels right-aligned
in width-3 fields, single-space separated, built by `Pixel.line`), in
storage order; a never-mutated `W`-by-`H` buffer with background `bg`
serializes to the header followed by `W*H` identical copies of `bg`'s line;
and the pixel stored for bottom-left coordinate `(x, y)` appears as pixel
line number `(H - 1 - y)*W + x`, i.e. rows are emitted topmost (`y = H-1`)
first and left to right within a row. -/
theorem render_layout :
    (∀ (w h : Nat) (bg : Pixel), (ImagePPM.new w h bg).fmt =
      "P3\n" ++ Nat.repr w ++ " " ++ Nat.repr h ++ "\n255\n" ++
        String.join (List.replicate (w * h) (Pixel.line bg))) ∧
    (∀ (img : ImagePPM) (x y : Nat) (p : Pixel), img.get x y = some p →
      (img.pixels.map Pixel.line)[(img.height - 1 - y) * img.width + x]? =
        some (Pixel.line p)) ∧
    (∀ img : ImagePPM, img.fmt =
      "P3\n" ++ Nat.repr img.width ++ " " ++ Nat.repr img.height ++ "\n255\n" ++
        String.join (img.pixels.map Pixel.line)) := by
  refine ⟨fun w h bg => ?_, fun img x y p hp => ?_, fun img => rfl⟩
  · show "P3\n" ++ Nat.repr w ++ " " ++ Nat.repr h ++ "\n255\n" ++
      String.join ((List.replicate (w * h) bg).map Pixel.line) = _
    rw [List.map_replicate]
  · have hin : ¬(img.width ≤ x ∨ img.height ≤ y) := fun hc => by
      rw [ImagePPM.get_oob hc] at hp
      cases hp
    have hx : x < img.width := by omega
    have hy : y < img.height := by omega
    rw [ImagePPM.get_inb hx hy] at hp
    have hidx : (img.height - 1 - y) * img.width + x = img.idx x y := by
      unfold ImagePPM.idx
      have he : img.height - 1 - y = img.height - y - 1 := by omega
      rw [he]
      ring
    rw [hidx, List.getElem?_map, hp]
    rfl

theorem render_layout_witness :
    ((ImagePPM.new 1 1 Pixel.WHITE).pixels.map Pixel.line)[
        ((ImagePPM.new 1 1 Pixel.WHITE).height - 1 - 0) *
          (ImagePPM.new 1 1 Pixel.WHITE).width + 0]? =
      some (Pixel.line Pixel.WHITE) :=
  render_layout.2.1 (ImagePPM.new 1 1 Pixel.WHITE) 0 0 Pixel.WHITE (by decide)

/-- C2: writing a color through the bounds-checked mutable access at an
in-bounds cell of a buffer satisfying the length invariant succeeds, makes
`get` at that cell return the written color, and leaves every other cell's
`get` unchanged; at an out-of-bounds coordinate both `get` and the mutable
access return absence (`none`) instead of failing, for every buffer,
including ones with zero width or zero height. -/
theorem get_set_spec (img : ImagePPM) (x y : Nat) (col : Pixel) :
    (x < img.width → y < img.height →
      img.pixels.length = img.width * img.height →
      ∃ img', img.set x y col = some img' ∧ img'.get x y = some col ∧
        ∀ x' y', ¬(x' = x ∧ y' = y) → img'.get x' y' = img.get x' y') ∧
    (img.width ≤ x ∨ img.height ≤ y →
      img.get x y = none ∧ img.set x y col = none) := by
  constructor
  · intro hx hy hlen
    have hset := @ImagePPM.set_eq_some img x y col hx hy
    obtain ⟨p, hp⟩ := ImagePPM.get_isSome hx hy hlen
    refine ⟨_, hset, ?_, fun x' y' hne => ?_⟩
    · rw [ImagePPM.get_set hset x y, if_pos ⟨rfl, rfl⟩, hp]
      rfl
    · rw [ImagePPM.get_set hset x' y', if_neg hne]
  · intro hb
    exact ⟨ImagePPM.get_oob hb, ImagePPM.set_oob hb⟩

theorem get_set_spec_witness :
    (∃ img', (ImagePPM.new 2 2 Pixel.BLACK).set 0 1 Pixel.WHITE = some img' ∧
      img'.get 0 1 = some Pixel.WHITE ∧
      ∀ x' y', ¬(x' = 0 ∧ y' = 1) →
        img'.get x' y' = (ImagePPM.new 2 2 Pixel.BLACK).get x' y') ∧
    ((ImagePPM.new 2 2 Pixel.BLACK).get 5 0 = none ∧
      (ImagePPM.new 2 2 Pixel.BLACK).set 5 0 Pixel.WHITE = none) :=
  ⟨(get_set_spec (ImagePPM.new 2 2 Pixel.BLACK) 0 1 Pixel.WHITE).1
      (by decide) (by decide) (by decide),
   (get_set_spec (ImagePPM.new 2 2 Pixel.BLACK) 5 0 Pixel.WHITE).2 (by decide)⟩

/-- C9: the length invariant `pixels.length = width * height` holds after
construction, and every operation — a single-pixel write through the
mutable access, `draw_line`, `draw_circle` — preserves the pixel-sequence
length and leaves the `width` and `height` fields unchanged whenever it
succeeds. -/
theorem buffer_invariants :
    (∀ (w h : Nat) (bg : Pixel), (ImagePPM.new w h bg).pixels.length = w * h ∧
      (ImagePPM.new w h bg).width = w ∧ (ImagePPM.new w h bg).height = h) ∧
    (∀ (img img' : ImagePPM) (x y : Nat) (col : Pixel),
      img.set x y col = some img' →
      img'.pixels.length = img.pixels.length ∧ img'.width = img.width ∧
        img'.height = img.height) ∧
    (∀ (img img' : ImagePPM) (a b : Coord) (col : Pixel),
      img.draw_line a b col = some img' →
      img'.pixels.length = img.pixels.length ∧ img'.width = img.width ∧
        img'.height = img.height) ∧
    (∀ (img img' : ImagePPM) (center : Coord) (radius : Nat) (col : Pixel),
      img.draw_circle center radius col = some img' →
      img'.pixels.length = img.pixels.length ∧ img'.width = img.width ∧
        img'.height = img.height) := by
  refine ⟨fun w h bg => ⟨by simp [ImagePPM.new], rfl, rfl⟩,
    fun img img' x y col h => ?_, fun img img' a b col h => ?_,
    fun img img' center radius col h => ?_⟩
  · obtain ⟨h1, h2, h3⟩ := ImagePPM.set_dims h
    exact ⟨h3, h1, h2⟩
  · unfold ImagePPM.draw_line at h
    obtain ⟨im₁, h₁, h₂⟩ := Option.bind_eq_some.mp h
    have hd₁ := foldlM_dims (f := fun (im : ImagePPM) (t : Nat) =>
        if Coord.distSq a b = 0 then im.set 0 0 col
        else im.set (lerpFloor a.x b.x t (Coord.distSq a b))
          (lerpFloor a.y b.y t (Coord.distSq a b)) col)
      (fun a' t' b' h' => by
        replace h' : (if Coord.distSq a b = 0 then a'.set 0 0 col
            else a'.set (lerpFloor a.x b.x t' (Coord.distSq a b))
              (lerpFloor a.y b.y t' (Coord.distSq a b)) col) = some b' := h'
        by_cases hn : Coord.distSq a b = 0
        · rw [if_pos hn] at h'
          exact ImagePPM.set_dims h'
        · rw [if_neg hn] at h'
          exact ImagePPM.set_dims h')
      (List.range (Nat.sqrt (Coord.distSq a b) + 1)) img im₁ h₁
    obtain ⟨h1, h2, h3⟩ := ImagePPM.set_dims h₂
    exact ⟨h3.trans hd₁.2.2, h1.trans hd₁.1, h2.trans hd₁.2.1⟩
  · unfold ImagePPM.draw_circle at h
    have hd := foldlM_dims (f := fun (im : ImagePPM) (y : Nat) =>
        (List.range im.width).foldlM
          (fun (im2 : ImagePPM) (x : Nat) =>
            if Coord.distSq (Coord.new x y) center < radius * radius
            then im2.set x y col else some im2)
          im)
      (fun a' y' b' h' => by
        exact foldlM_dims (fun a'' x'' b'' h'' => by
          replace h'' : (if Coord.distSq (Coord.new x'' y') center < radius * radius
              then a''.set x'' y' col else some a'') = some b'' := h''
          by_cases hts : Coord.distSq (Coord.new x'' y') center < radius * radius
          · rw [if_pos hts] at h''
            exact ImagePPM.set_dims h''
          · rw [if_neg hts] at h''
            obtain rfl : b'' = a'' := (Option.some.inj h'').symm
            exact ⟨rfl, rfl, rfl⟩)
          (List.range a'.width) a' b' h')
      (List.range img.height) img img' h
    exact ⟨hd.2.2, hd.1, hd.2.1⟩

theorem buffer_invariants_witness :
    ((ImagePPM.new 2 3 Pixel.RED).pixels.length = 2 * 3 ∧
      (ImagePPM.new 2 3 Pixel.RED).width = 2 ∧
      (ImagePPM.new 2 3 Pixel.RED).height = 3) ∧
    (({ pixels := [Pixel.WHITE, Pixel.BLACK, Pixel.BLACK, Pixel.BLACK],
          width := 2, height := 2 } : ImagePPM).pixels.length =
        (ImagePPM.new 2 2 Pixel.BLACK).pixels.length ∧
      ({ pixels := [Pixel.WHITE, Pixel.BLACK, Pixel.BLACK, Pixel.BLACK],
          width := 2, height := 2 } : ImagePPM).width =
        (ImagePPM.new 2 2 Pixel.BLACK).width ∧
      ({ pixels := [Pixel.WHITE, Pixel.BLACK, Pixel.BLACK, Pixel.BLACK],
          width := 2, height := 2 } : ImagePPM).height =
        (ImagePPM.new 2 2 Pixel.BLACK).height) ∧
    (({ pixels := [Pixel.WHITE, Pixel.WHITE], width := 2, height := 1 } :
        ImagePPM).pixels.length = (ImagePPM.new 2 1 Pixel.BLACK).pixels.length ∧
      ({ pixels := [Pixel.WHITE, Pixel.WHITE], width := 2, height := 1 } :
        ImagePPM).width = (ImagePPM.new 2 1 Pixel.BLACK).width ∧
      ({ pixels := [Pixel.WHITE, Pixel.WHITE], width := 2, height := 1 } :
        ImagePPM).height = (ImagePPM.new 2 1 Pixel.BLACK).height) ∧
    (({ pixels := [Pixel.WHITE], width := 1, height := 1 } :
        ImagePPM).pixels.length = (ImagePPM.new 1 1 Pixel.BLACK).pixels.length ∧
      ({ pixels := [Pixel.WHITE], width := 1, height := 1 } :
        ImagePPM).width = (ImagePPM.new 1 1 Pixel.BLACK).width ∧
      ({ pixels := [Pixel.WHITE], width := 1, height := 1 } :
        ImagePPM).height = (ImagePPM.new 1 1 Pixel.BLACK).height) :=
  ⟨buffer_invariants.1 2 3 Pixel.RED,
   buffer_invariants.2.1 (ImagePPM.new 2 2 Pixel.BLACK) _ 0 1 Pixel.WHITE
     (by decide),
   buffer_invariants.2.2.1 (ImagePPM.new 2 1 Pixel.BLACK) _ (Coord.new 0 0)
     (Coord.new 1 0) Pixel.WHITE (by decide),
   buffer_invariants.2.2.2 (ImagePPM.new 1 1 Pixel.BLACK) _ (Coord.new 0 0) 1
     Pixel.WHITE (by decide)⟩
